import Mathlib

/-!
Verification development for the rokumeals repository.

The two subsystems under study are the semantic-search engine
(`mbg_app/simple_semantic_search.py`) and the ingredient dedup/merge engine
(`merge_duplicates.py`, `mbg_app/management/commands/normalize_ingredients.py`).
Scores and embedding coordinates are modelled as exact rationals (the Python
code manipulates them as opaque floats coming back from the store); strings
are modelled by Lean strings with structural, character-level helpers that
mirror Python's `str.lower`, `str.capitalize` and code-point comparison.
The Neo4j store is modelled as lists of nodes and edges; one Cypher query's
row semantics is translated clause by clause at each call site.
-/

namespace RokuMeals

/-- Lowercases one string character-wise, as Python `str.lower` and Cypher
`toLower` do for ASCII input (Lean's own `String.toLower` computes the same
list of characters). -/
def pyLower (s : String) : String := ⟨s.data.map Char.toLower⟩

/-- Python `str.capitalize`: first character uppercased, all remaining
characters lowercased.  Used for `node_type.capitalize()` in
`simple_semantic_search.py`. -/
def pyCapitalize (s : String) : String :=
  match s.data with
  | [] => ""
  | c :: cs => ⟨c.toUpper :: cs.map Char.toLower⟩

/-- Code-point lexicographic comparison of character lists, the order Python
uses for `str` comparison (and hence for sort keys built from names). -/
def charsLE : List Char → List Char → Bool
  | [], _ => true
  | _ :: _, [] => false
  | a :: as, b :: bs =>
    if a.toNat < b.toNat then true
    else if b.toNat < a.toNat then false
    else charsLE as bs

theorem charsLE_cons {a b : Char} {as bs : List Char} :
    charsLE (a :: as) (b :: bs) = true ↔
      a.toNat < b.toNat ∨ (a.toNat = b.toNat ∧ charsLE as bs = true) := by
  have e : charsLE (a :: as) (b :: bs)
      = if a.toNat < b.toNat then true
        else if b.toNat < a.toNat then false else charsLE as bs := rfl
  rw [e]
  rcases Nat.lt_trichotomy a.toNat b.toNat with h | h | h
  · rw [if_pos h]; simp [h]
  · rw [if_neg (by omega), if_neg (by omega)]
    simp [h, Nat.lt_irrefl]
  · rw [if_neg (by omega), if_pos h]
    simp only [Bool.false_eq_true, false_iff]
    rintro (h' | ⟨h', _⟩) <;> omega

theorem charsLE_total (as bs : List Char) : charsLE as bs = true ∨ charsLE bs as = true := by
  induction as generalizing bs with
  | nil => left; rfl
  | cons a as ih =>
    cases bs with
    | nil => right; rfl
    | cons b bs =>
      rw [charsLE_cons, charsLE_cons]
      rcases Nat.lt_trichotomy a.toNat b.toNat with h | h | h
      · left; exact .inl h
      · rcases ih bs with h' | h'
        · exact .inl (.inr ⟨h, h'⟩)
        · exact .inr (.inr ⟨h.symm, h'⟩)
      · right; exact .inl h

theorem charsLE_trans {as bs cs : List Char} (h₁ : charsLE as bs = true)
    (h₂ : charsLE bs cs = true) : charsLE as cs = true := by
  induction as generalizing bs cs with
  | nil => rfl
  | cons a as ih =>
    cases bs with
    | nil => simp [charsLE] at h₁
    | cons b bs =>
      cases cs with
      | nil => simp [charsLE] at h₂
      | cons c cs =>
        rw [charsLE_cons] at h₁ h₂ ⊢
        rcases h₁ with h₁ | ⟨h₁e, h₁r⟩
        · rcases h₂ with h₂ | ⟨h₂e, _⟩
          · exact .inl (by omega)
          · exact .inl (by omega)
        · rcases h₂ with h₂ | ⟨h₂e, h₂r⟩
          · exact .inl (by omega)
          · exact .inr ⟨by omega, ih h₁r h₂r⟩

/-- Half-to-even rounding of a rational to an integer, the rounding Python's
built-in `round` performs.  `round(x, 3)` in the source is modelled as
`roundHalfEven (x * 1000) / 1000`. -/
def roundHalfEven (y : ℚ) : ℤ :=
  if y - ⌊y⌋ < 1/2 then ⌊y⌋
  else if 1/2 < y - ⌊y⌋ then ⌊y⌋ + 1
  else if ⌊y⌋ % 2 = 0 then ⌊y⌋ else ⌊y⌋ + 1

/-- Python `round(x, 3)`: the score rounding applied to every
`similarity_score` the search code returns. -/
def round3 (x : ℚ) : ℚ := (roundHalfEven (x * 1000) : ℚ) / 1000

theorem roundHalfEven_cases (y : ℚ) :
    roundHalfEven y = ⌊y⌋ ∨ roundHalfEven y = ⌊y⌋ + 1 := by
  unfold roundHalfEven
  split
  · exact .inl rfl
  · split
    · exact .inr rfl
    · split
      · exact .inl rfl
      · exact .inr rfl

theorem le_roundHalfEven (y : ℚ) : y - 1/2 ≤ (roundHalfEven y : ℚ) := by
  have hf : (⌊y⌋ : ℚ) ≤ y := Int.floor_le y
  have hf1 : y < (⌊y⌋ : ℚ) + 1 := Int.lt_floor_add_one y
  unfold roundHalfEven
  split
  · linarith
  · split
    · push_cast; linarith
    · split
      · linarith
      · push_cast; linarith

theorem roundHalfEven_le (y : ℚ) : (roundHalfEven y : ℚ) ≤ y + 1/2 := by
  have hf : (⌊y⌋ : ℚ) ≤ y := Int.floor_le y
  unfold roundHalfEven
  split
  · linarith
  · rename_i h1
    push_neg at h1
    split
    · push_cast; linarith
    · rename_i h2
      push_neg at h2
      split
      · linarith
      · push_cast; linarith

theorem roundHalfEven_mono {y z : ℚ} (h : y ≤ z) :
    roundHalfEven y ≤ roundHalfEven z := by
  rcases lt_or_eq_of_le (Int.floor_le_floor h : ⌊y⌋ ≤ ⌊z⌋) with hf | hf
  · rcases roundHalfEven_cases y with hy | hy <;>
      rcases roundHalfEven_cases z with hz | hz <;> omega
  · have hfr : y - (⌊y⌋ : ℚ) ≤ z - (⌊z⌋ : ℚ) := by
      rw [hf]; linarith
    unfold roundHalfEven
    by_cases h1 : y - (⌊y⌋ : ℚ) < 1/2
    · rw [if_pos h1, hf]
      repeat' split
      all_goals omega
    · rw [if_neg h1]
      have h1' : (1:ℚ)/2 ≤ y - ⌊y⌋ := not_lt.mp h1
      have h1z : ¬ (z - (⌊z⌋ : ℚ) < 1/2) := not_lt.mpr (le_trans h1' hfr)
      rw [if_neg h1z]
      by_cases h2 : (1:ℚ)/2 < y - ⌊y⌋
      · rw [if_pos h2, if_pos (lt_of_lt_of_le h2 hfr), hf]
      · rw [if_neg h2]
        by_cases h2z : (1:ℚ)/2 < z - ⌊z⌋
        · rw [if_pos h2z]
          split <;> omega
        · rw [if_neg h2z, hf]

theorem round3_mono {x y : ℚ} (h : x ≤ y) : round3 x ≤ round3 y := by
  unfold round3
  have := roundHalfEven_mono (y := x * 1000) (z := y * 1000) (by nlinarith)
  have : ((roundHalfEven (x * 1000) : ℚ)) ≤ (roundHalfEven (y * 1000) : ℚ) := by
    exact_mod_cast this
  linarith

theorem sub_le_round3 (x : ℚ) : x - 1/2000 ≤ round3 x := by
  unfold round3
  have := le_roundHalfEven (x * 1000)
  rw [le_div_iff (by norm_num : (0:ℚ) < 1000)]
  linarith

/-! ### Semantic search (`mbg_app/simple_semantic_search.py`)

A store node carries the per-label unique id property (`recipe_id` /
`ingredient_id` / `category_id`), the display name (`title` or `name`) and
the optional `embedding` float-array property.  The three per-type Cypher
branches of `search_by_embedding` differ only in which extra display fields
they join in; their id / similarity / threshold / ordering / limit logic is
one and the same pipeline, which is what is modelled.  The cosine similarity
itself is computed by the store's `gds.similarity.cosine`, which is external
to the repository, so the pipeline is parametric in the scoring function. -/

structure StoreNode where
  id : String
  name : String
  embedding : Option (List ℚ)
deriving DecidableEq

/-- One formatted search result: the `type`, the node id, the display name
and the `similarity_score` rounded to three decimals, as assembled by the
`formatted_results.append` calls. -/
structure SearchResult where
  rtype : String
  id : String
  name : String
  similarity_score : ℚ
deriving DecidableEq

/-- The backing graph store: the node rows `MATCH (n:Label)` enumerates for
each label, in the (unspecified) order the store returns them, plus a flag
telling whether `db.cypher_query` succeeds or raises. -/
structure Store where
  byLabel : String → List StoreNode
  up : Bool

/-- Rows after `MATCH (n:Label) WHERE n.embedding IS NOT NULL` and the
`WITH n, gds.similarity.cosine($query_embedding, n.embedding) AS similarity`
clause: each node with a non-null embedding paired with its score. -/
def scoreRows (cos : List ℚ → List ℚ → ℚ) (q : List ℚ) (nodes : List StoreNode) :
    List (StoreNode × ℚ) :=
  nodes.filterMap fun n => n.embedding.map fun e => (n, cos q e)

/-- The `WHERE similarity >= $threshold` clause. -/
def thresholdRows (cos : List ℚ → List ℚ → ℚ) (q : List ℚ) (threshold : ℚ)
    (nodes : List StoreNode) : List (StoreNode × ℚ) :=
  (scoreRows cos q nodes).filter fun p => decide (threshold ≤ p.2)

/-- Scored-row comparison used by `ORDER BY similarity DESC`: the query
orders by the similarity value alone, with no secondary key. -/
def simGE (a b : StoreNode × ℚ) : Prop := b.2 ≤ a.2

instance : DecidableRel simGE := fun a b => inferInstanceAs (Decidable (b.2 ≤ a.2))

instance : IsTotal (StoreNode × ℚ) simGE := ⟨fun a b => le_total b.2 a.2⟩

instance : IsTrans (StoreNode × ℚ) simGE := ⟨fun _ _ _ h1 h2 => le_trans h2 h1⟩

/-- The `ORDER BY similarity DESC` clause, modelled as a stable sort of the
thresholded rows (stability is an assumption about the store; the query
itself specifies no tie-break). -/
def rankRows (cos : List ℚ → List ℚ → ℚ) (q : List ℚ) (threshold : ℚ)
    (nodes : List StoreNode) : List (StoreNode × ℚ) :=
  List.insertionSort simGE (thresholdRows cos q threshold nodes)

/-- The full per-label Cypher: score, threshold, `ORDER BY similarity DESC`,
`LIMIT $limit`. -/
def cypherTopK (cos : List ℚ → List ℚ → ℚ) (q : List ℚ) (threshold : ℚ) (limit : ℕ)
    (nodes : List StoreNode) : List (StoreNode × ℚ) :=
  (rankRows cos q threshold nodes).take limit

/-- Formatting of one result row (the per-type `formatted_results.append`):
the similarity is rounded with `round(float(score), 3)`. -/
def formatRow (node_type : String) (p : StoreNode × ℚ) : SearchResult :=
  { rtype := node_type, id := p.1.id, name := p.1.name,
    similarity_score := round3 p.2 }

/-- Model of `SimpleSemanticSearch.search_by_embedding`: runs the per-label Cypher for
`node_type.capitalize()` and formats the rows; any exception from the store
is caught and an empty list is returned. -/
def search_by_embedding (cos : List ℚ → List ℚ → ℚ) (stor : Store) (query_embedding : List ℚ)
    (node_type : String) (limit : ℕ) (threshold : ℚ) : List SearchResult :=
  if stor.up then
    (cypherTopK cos query_embedding threshold limit
        (stor.byLabel (pyCapitalize node_type))).map (formatRow node_type)
  else []

/-- Model of `SimpleSemanticSearch.find_similar_items`: fetch the reference node's
embedding by id (`results[0][0]`); a missing node, a null embedding or an
empty embedding list is falsy and gives `[]`; otherwise the reference
embedding is handed to `search_by_embedding` unchanged.  Exceptions are
caught and give `[]`. -/
def find_similar_items (cos : List ℚ → List ℚ → ℚ) (stor : Store) (item_id item_type : String)
    (limit : ℕ) (threshold : ℚ) : List SearchResult :=
  if stor.up then
    match (stor.byLabel (pyCapitalize item_type)).find? (fun n => n.id == item_id) with
    | none => []
    | some n =>
      match n.embedding with
      | none => []
      | some e => if e.isEmpty then [] else search_by_embedding cos stor e item_type limit threshold
  else []

/-- Integer square root lifted to the rationals; exact on rationals whose
numerator and denominator are perfect squares, which is the only place it is
used.  Together with `dotQ` it lets `cosineQ` compute the store's
`gds.similarity.cosine` exactly on such vectors. -/
def ratSqrt (q : ℚ) : ℚ := (Nat.sqrt q.num.toNat : ℚ) / (Nat.sqrt q.den : ℚ)

/-- Dot product of two float-list vectors. -/
def dotQ : List ℚ → List ℚ → ℚ
  | a :: as, b :: bs => a * b + dotQ as bs
  | _, _ => 0

/-- Modelled from the spec: cosine similarity, "dot product of two vectors
divided by the product of their magnitudes".  The repository never computes
this itself — it calls the Neo4j plugin `gds.similarity.cosine` — so the
scoring function is modelled after the spec's Similarity Scorer contract.
Exact whenever the squared norms of both arguments are perfect squares of
rationals (all concrete vectors used below are of that shape). -/
def cosineQ (a b : List ℚ) : ℚ :=
  let m := ratSqrt (dotQ a a) * ratSqrt (dotQ b b)
  if m = 0 then 0 else dotQ a b / m

theorem mem_thresholdRows {cos q threshold nodes} {p : StoreNode × ℚ}
    (h : p ∈ thresholdRows cos q threshold nodes) : threshold ≤ p.2 := by
  have := List.of_mem_filter h
  simpa using this

theorem mem_rankRows {cos q threshold nodes} {p : StoreNode × ℚ}
    (h : p ∈ rankRows cos q threshold nodes) : p ∈ thresholdRows cos q threshold nodes :=
  (List.perm_insertionSort simGE _).mem_iff.mp h

theorem sorted_rankRows (cos q threshold nodes) :
    List.Sorted simGE (rankRows cos q threshold nodes) :=
  List.sorted_insertionSort simGE _

/-- C1 (amended): for every scoring function, store, query embedding, node
type, limit N and threshold T, `search_by_embedding` returns at most N
results, sorted by descending `similarity_score`; every returned result's
underlying similarity is at least T, and its `similarity_score` — that value
rounded half-to-even to 3 decimals — is at least T - 1/2000 (it can dip up
to 0.0005 below T, which is the amendment). -/
theorem search_limit_sorted_threshold (cos : List ℚ → List ℚ → ℚ) (stor : Store)
    (q : List ℚ) (node_type : String) (limit : ℕ) (threshold : ℚ) :
    (search_by_embedding cos stor q node_type limit threshold).length ≤ limit ∧
    List.Sorted (fun a b : SearchResult => b.similarity_score ≤ a.similarity_score)
      (search_by_embedding cos stor q node_type limit threshold) ∧
    ∀ r ∈ search_by_embedding cos stor q node_type limit threshold,
      (∃ raw, threshold ≤ raw ∧ r.similarity_score = round3 raw) ∧
      threshold - 1/2000 ≤ r.similarity_score := by
  unfold search_by_embedding
  split
  · refine ⟨?_, ?_, ?_⟩
    · rw [List.length_map]
      unfold cypherTopK
      rw [List.length_take]
      exact inf_le_left
    · have hs : List.Sorted simGE (cypherTopK cos q threshold limit
          (stor.byLabel (pyCapitalize node_type))) :=
        List.Pairwise.sublist (List.take_sublist _ _) (sorted_rankRows _ _ _ _)
      rw [List.Sorted, List.pairwise_map]
      exact hs.imp fun h => round3_mono h
    · intro r hr
      obtain ⟨p, hp, hpr⟩ := List.mem_map.mp hr
      have hpt : threshold ≤ p.2 :=
        mem_thresholdRows (mem_rankRows (List.mem_of_mem_take hp))
      subst hpr
      refine ⟨⟨p.2, hpt, rfl⟩, ?_⟩
      have := sub_le_round3 p.2
      simp only [formatRow]
      linarith
  · exact ⟨by simp, by simp, by simp⟩

/-! ### Concrete stores used to instantiate the search theorems -/

/-- Ingredient node whose embedding is the one-dimensional vector [1]. -/
def nodeW : StoreNode := ⟨"i1", "apple", some [1]⟩

/-- A healthy store holding exactly `nodeW` under the Ingredient label. -/
def storeW : Store := ⟨fun l => if l = "Ingredient" then [nodeW] else [], true⟩

/-- Ingredient node with embedding [0, 1]; its cosine against [20, 21] is
exactly 21/29 (the squared norms 841 and 1 are perfect squares). -/
def nodeR : StoreNode := ⟨"i2", "pear", some [0, 1]⟩

/-- A healthy store holding exactly `nodeR` under the Ingredient label. -/
def storeR : Store := ⟨fun l => if l = "Ingredient" then [nodeR] else [], true⟩

/-- A store whose queries fail (`db.cypher_query` raises). -/
def storeDown : Store := ⟨fun _ => [], false⟩

/-- A healthy store with no data at all. -/
def storeEmpty : Store := ⟨fun _ => [], true⟩

theorem cosineQ_self_one : cosineQ [1] [1] = 1 := by
  norm_num [cosineQ, dotQ, ratSqrt]

theorem roundHalfEven_intCast (n : ℤ) : roundHalfEven ((n : ℚ)) = n := by
  unfold roundHalfEven
  rw [Int.floor_intCast, if_pos (by rw [sub_self]; norm_num)]

theorem round3_one : round3 1 = 1 := by
  rw [round3, show (1:ℚ) * 1000 = ((1000:ℤ) : ℚ) by norm_num, roundHalfEven_intCast]
  norm_num

theorem search_storeW_eval :
    search_by_embedding cosineQ storeW [1] "ingredient" 5 0
      = [⟨"ingredient", "i1", "apple", 1⟩] := by
  have htr : thresholdRows cosineQ [1] 0 [nodeW] = [(nodeW, 1)] := by
    simp [thresholdRows, scoreRows, nodeW, cosineQ_self_one, List.filter]
  have hrr : rankRows cosineQ [1] 0 [nodeW] = [(nodeW, 1)] := by
    simp [rankRows, htr, List.insertionSort, List.orderedInsert]
  unfold search_by_embedding cypherTopK
  rw [show storeW.up = true from rfl, if_pos rfl,
    show storeW.byLabel (pyCapitalize "ingredient") = [nodeW] from rfl, hrr]
  simp [formatRow, nodeW, round3_one]

/-- C1 witness: applying the amended search theorem to a concrete store,
query, limit 5 and threshold 0. -/
theorem search_limit_sorted_threshold_witness :
    (search_by_embedding cosineQ storeW [1] "ingredient" 5 0).length ≤ 5 ∧
    (0:ℚ) - 1/2000 ≤ (SearchResult.mk "ingredient" "i1" "apple" 1).similarity_score := by
  refine ⟨(search_limit_sorted_threshold cosineQ storeW [1] "ingredient" 5 0).1, ?_⟩
  exact ((search_limit_sorted_threshold cosineQ storeW [1] "ingredient" 5 0).2.2
    ⟨"ingredient", "i1", "apple", 1⟩
    (by rw [search_storeW_eval]; exact List.mem_singleton.mpr rfl)).2

theorem cosineQ_2021 : cosineQ [20, 21] [0, 1] = 21/29 := by
  norm_num [cosineQ, dotQ, ratSqrt, show ((841:ℤ).toNat = 841) from rfl]

theorem round3_2129 : round3 (21/29) = 181/250 := by
  have hf : (⌊(21:ℚ)/29 * 1000⌋ : ℤ) = 724 := by
    rw [Int.floor_eq_iff]
    constructor <;> norm_num
  rw [round3, roundHalfEven, hf, if_pos (by norm_num)]
  norm_num

/-- C1 counterexample: with threshold T = 21/29 the store's filter keeps the
candidate whose raw similarity is exactly 21/29, but the returned
`similarity_score` is `round(21/29, 3) = 0.724 < T`, so "no returned result
has a similarity score below T" fails as stated. -/
theorem search_score_below_threshold_cex :
    search_by_embedding cosineQ storeR [20, 21] "ingredient" 5 (21/29)
      = [⟨"ingredient", "i2", "pear", 181/250⟩] ∧
    (181:ℚ)/250 < 21/29 := by
  constructor
  · have htr : thresholdRows cosineQ [20, 21] (21/29) [nodeR] = [(nodeR, 21/29)] := by
      simp [thresholdRows, scoreRows, nodeR, cosineQ_2021, List.filter]
    have hrr : rankRows cosineQ [20, 21] (21/29) [nodeR] = [(nodeR, 21/29)] := by
      simp [rankRows, htr, List.insertionSort, List.orderedInsert]
    unfold search_by_embedding cypherTopK
    rw [show storeR.up = true from rfl, if_pos rfl,
      show storeR.byLabel (pyCapitalize "ingredient") = [nodeR] from rfl, hrr]
    simp [formatRow, nodeR, round3_2129]
  · norm_num

theorem find_similar_found_eval (cos : List ℚ → List ℚ → ℚ) (stor : Store)
    (item_id item_type : String) (limit : ℕ) (threshold : ℚ) (n : StoreNode) (e : List ℚ)
    (hup : stor.up = true)
    (hfind : (stor.byLabel (pyCapitalize item_type)).find? (fun n => n.id == item_id) = some n)
    (hemb : n.embedding = some e) (hne : e ≠ []) :
    find_similar_items cos stor item_id item_type limit threshold
      = search_by_embedding cos stor e item_type limit threshold := by
  have he : e.isEmpty = false := by rw [List.isEmpty_eq_false]; exact hne
  simp only [find_similar_items, hup, if_true, hfind, hemb, he, Bool.false_eq_true, if_false]

/-- C2 counterexample: `find_similar_items` on the reference ingredient
`i1` returns a list containing `i1` itself (with similarity 1) — the
reference item is not excluded from its own results. -/
theorem find_similar_includes_reference_cex :
    find_similar_items cosineQ storeW "i1" "ingredient" 5 0
      = [⟨"ingredient", "i1", "apple", 1⟩] ∧
    (SearchResult.mk "ingredient" "i1" "apple" 1).id = nodeW.id := by
  refine ⟨?_, rfl⟩
  rw [find_similar_found_eval cosineQ storeW "i1" "ingredient" 5 0 nodeW [1]
    rfl rfl rfl (by simp)]
  exact search_storeW_eval

/-- C2 (amended): `find_similar_items` performs no self-exclusion — whenever
the reference node is found and carries a non-empty embedding `e`, the call
returns exactly `search_by_embedding` applied to `e`, reference item
included. -/
theorem find_similar_delegates_no_exclusion (cos : List ℚ → List ℚ → ℚ) (stor : Store)
    (item_id item_type : String) (limit : ℕ) (threshold : ℚ) (n : StoreNode) (e : List ℚ)
    (hup : stor.up = true)
    (hfind : (stor.byLabel (pyCapitalize item_type)).find? (fun n => n.id == item_id) = some n)
    (hemb : n.embedding = some e) (hne : e ≠ []) :
    find_similar_items cos stor item_id item_type limit threshold
      = search_by_embedding cos stor e item_type limit threshold :=
  find_similar_found_eval cos stor item_id item_type limit threshold n e hup hfind hemb hne

/-- C2 witness for the amended theorem at a concrete store and reference. -/
theorem find_similar_delegates_no_exclusion_witness :
    find_similar_items cosineQ storeW "i1" "ingredient" 5 0
      = search_by_embedding cosineQ storeW [1] "ingredient" 5 0 :=
  find_similar_delegates_no_exclusion cosineQ storeW "i1" "ingredient" 5 0 nodeW [1]
    rfl rfl rfl (by simp)

/-- C7 counterexample: with the store down, both operations return exactly
the empty list a healthy store with no data returns — the caller receives
no `StoreUnavailable` condition and cannot distinguish "no data" from
"could not ask the store". -/
theorem store_failure_swallowed_cex :
    search_by_embedding cosineQ storeDown [1] "recipe" 5 0 = [] ∧
    search_by_embedding cosineQ storeEmpty [1] "recipe" 5 0 = [] ∧
    find_similar_items cosineQ storeDown "i1" "ingredient" 5 0 = [] ∧
    find_similar_items cosineQ storeEmpty "i1" "ingredient" 5 0 = [] :=
  ⟨rfl, rfl, rfl, rfl⟩

/-- C7 (amended): when the backing store fails, `search_by_embedding` and
`find_similar_items` catch the exception, log it, and return the empty
list — the failure is swallowed, not propagated as a distinguishable
error condition. -/
theorem store_failure_returns_empty (cos : List ℚ → List ℚ → ℚ) (stor : Store)
    (q : List ℚ) (node_type item_id : String) (limit : ℕ) (threshold : ℚ)
    (hdown : stor.up = false) :
    search_by_embedding cos stor q node_type limit threshold = [] ∧
    find_similar_items cos stor item_id node_type limit threshold = [] := by
  constructor
  · rw [search_by_embedding, hdown]
    simp
  · rw [find_similar_items, hdown]
    simp

/-- C7 witness: the amended theorem applied to the concrete failing store. -/
theorem store_failure_returns_empty_witness :
    search_by_embedding cosineQ storeDown [1] "recipe" 5 0 = [] ∧
    find_similar_items cosineQ storeDown "i1" "recipe" 5 0 = [] :=
  store_failure_returns_empty cosineQ storeDown [1] "recipe" "i1" 5 0 rfl

/-- A store with one embedded node under each of the three standard labels
and nothing under any other label. -/
def storeAll : Store :=
  ⟨fun l =>
    if l = "Recipe" then [⟨"r1", "cake", some [1]⟩]
    else if l = "Ingredient" then [⟨"i1", "apple", some [1]⟩]
    else if l = "Category" then [⟨"c1", "dessert", some [1]⟩]
    else [], true⟩

/-- C8 counterexample: on a store populated under all three labels, a
`search_by_embedding` call with type "all" returns nothing (it queries the
nonexistent label "All"), while the same query with type "recipe" does
return the matching recipe — so "all" does not resolve to the three node
types and no candidates are merged. -/
theorem search_all_no_fanout_cex :
    search_by_embedding cosineQ storeAll [1] "all" 10 0 = [] ∧
    search_by_embedding cosineQ storeAll [1] "recipe" 10 0
      = [⟨"recipe", "r1", "cake", 1⟩] := by
  constructor
  · rfl
  · have htr : thresholdRows cosineQ [1] 0 [⟨"r1", "cake", some [1]⟩]
        = [(⟨"r1", "cake", some [1]⟩, 1)] := by
      simp [thresholdRows, scoreRows, cosineQ_self_one, List.filter]
    have hrr : rankRows cosineQ [1] 0 [⟨"r1", "cake", some [1]⟩]
        = [(⟨"r1", "cake", some [1]⟩, 1)] := by
      simp [rankRows, htr, List.insertionSort, List.orderedInsert]
    unfold search_by_embedding cypherTopK
    rw [show storeAll.up = true from rfl, if_pos rfl,
      show storeAll.byLabel (pyCapitalize "recipe") = [⟨"r1", "cake", some [1]⟩] from rfl,
      hrr]
    simp [formatRow, round3_one]

/-- C8 (amended): `search_by_embedding` does not special-case "all" — the
type is capitalized to the node label "All" and the single generic fallback
query runs against that label, so in any store with no nodes labelled "All"
a type-"all" search returns the empty list; no per-type fan-out happens. -/
theorem search_all_queries_all_label (cos : List ℚ → List ℚ → ℚ) (stor : Store)
    (q : List ℚ) (limit : ℕ) (threshold : ℚ)
    (h : stor.byLabel "All" = []) :
    pyCapitalize "all" = "All" ∧
    search_by_embedding cos stor q "all" limit threshold = [] := by
  refine ⟨rfl, ?_⟩
  rw [search_by_embedding, show pyCapitalize "all" = "All" from rfl, h]
  cases stor.up <;> simp [thresholdRows, scoreRows, rankRows, cypherTopK,
    List.insertionSort]

/-- C8 witness: the amended theorem applied to the concrete store. -/
theorem search_all_queries_all_label_witness :
    search_by_embedding cosineQ storeAll [1] "all" 10 0 = [] :=
  (search_all_queries_all_label cosineQ storeAll [1] 10 0 rfl).2

/-- Recipe nodes with identical embeddings, hence tied similarity scores. -/
def nodeA : StoreNode := ⟨"a", "alpha", some [1]⟩

def nodeB : StoreNode := ⟨"b", "beta", some [1]⟩

/-- The same store state with two different row-enumeration orders. -/
def storeOrd1 : Store := ⟨fun l => if l = "Recipe" then [nodeA, nodeB] else [], true⟩

def storeOrd2 : Store := ⟨fun l => if l = "Recipe" then [nodeB, nodeA] else [], true⟩

theorem search_storeOrd1_eval :
    search_by_embedding cosineQ storeOrd1 [1] "recipe" 5 0
      = [⟨"recipe", "a", "alpha", 1⟩, ⟨"recipe", "b", "beta", 1⟩] := by
  have htr : thresholdRows cosineQ [1] 0 [nodeA, nodeB] = [(nodeA, 1), (nodeB, 1)] := by
    simp [thresholdRows, scoreRows, nodeA, nodeB, cosineQ_self_one, List.filter]
  have hrr : rankRows cosineQ [1] 0 [nodeA, nodeB] = [(nodeA, 1), (nodeB, 1)] := by
    rw [rankRows, htr]
    simp [List.insertionSort, List.orderedInsert, simGE]
  unfold search_by_embedding cypherTopK
  rw [show storeOrd1.up = true from rfl, if_pos rfl,
    show storeOrd1.byLabel (pyCapitalize "recipe") = [nodeA, nodeB] from rfl, hrr]
  simp [formatRow, nodeA, nodeB, round3_one]

theorem search_storeOrd2_eval :
    search_by_embedding cosineQ storeOrd2 [1] "recipe" 5 0
      = [⟨"recipe", "b", "beta", 1⟩, ⟨"recipe", "a", "alpha", 1⟩] := by
  have htr : thresholdRows cosineQ [1] 0 [nodeB, nodeA] = [(nodeB, 1), (nodeA, 1)] := by
    simp [thresholdRows, scoreRows, nodeA, nodeB, cosineQ_self_one, List.filter]
  have hrr : rankRows cosineQ [1] 0 [nodeB, nodeA] = [(nodeB, 1), (nodeA, 1)] := by
    rw [rankRows, htr]
    simp [List.insertionSort, List.orderedInsert, simGE]
  unfold search_by_embedding cypherTopK
  rw [show storeOrd2.up = true from rfl, if_pos rfl,
    show storeOrd2.byLabel (pyCapitalize "recipe") = [nodeB, nodeA] from rfl, hrr]
  simp [formatRow, nodeA, nodeB, round3_one]

/-- C9 counterexample: two runs against the same store state (the two Recipe
row lists are permutations of each other) with identical query, limit and
threshold return the tied results in different orders — there is no
secondary tie-break key, so the output order depends on the store's row
enumeration order. -/
theorem tie_order_store_dependent_cex :
    (storeOrd1.byLabel "Recipe").Perm (storeOrd2.byLabel "Recipe") ∧
    search_by_embedding cosineQ storeOrd1 [1] "recipe" 5 0
      ≠ search_by_embedding cosineQ storeOrd2 [1] "recipe" 5 0 := by
  constructor
  · exact List.Perm.swap nodeB nodeA []
  · rw [search_storeOrd1_eval, search_storeOrd2_eval]
    intro h
    have := List.head_eq_of_cons_eq h
    simp at this

/-- C9 (amended): the global ranking sorts by similarity only, with no
secondary key; it is stable with respect to the store's row order — any
equal-score pair of retained candidates keeps its relative row order in the
ranked list — so the result order is deterministic only relative to a fixed
row-enumeration order of the store. -/
theorem ranking_stable_in_row_order (cos : List ℚ → List ℚ → ℚ) (q : List ℚ)
    (threshold : ℚ) (nodes : List StoreNode) (a b : StoreNode × ℚ)
    (heq : a.2 = b.2)
    (hsub : [a, b].Sublist (thresholdRows cos q threshold nodes)) :
    [a, b].Sublist (rankRows cos q threshold nodes) :=
  List.pair_sublist_insertionSort (by rw [simGE, heq]) hsub

/-- C9 witness: the amended stability theorem at the concrete tied rows. -/
theorem ranking_stable_in_row_order_witness :
    [(nodeA, (1:ℚ)), (nodeB, 1)].Sublist (rankRows cosineQ [1] 0 [nodeA, nodeB]) := by
  refine ranking_stable_in_row_order cosineQ [1] 0 [nodeA, nodeB] (nodeA, 1) (nodeB, 1)
    rfl ?_
  have htr : thresholdRows cosineQ [1] 0 [nodeA, nodeB] = [(nodeA, 1), (nodeB, 1)] := by
    simp [thresholdRows, scoreRows, nodeA, nodeB, cosineQ_self_one, List.filter]
  rw [htr]

/-! ### Ingredient deduplication (`merge_duplicates.py`)

The graph state carries the Ingredient nodes (id, name, category from the
grouping query's `collect`, plus the embedding property used by step 3) and
the edge multisets: `CONTAINS` edges as (recipe_id, ingredient_id) pairs,
`CLASSIFIED_AS` edges as (ingredient_id, category_id) pairs, and `extra`,
relationships of any other type attached to ingredient nodes, which the
transfer steps never touch but which count towards a node's degree when
`DELETE` runs.  Ids are assumed unique per label (a data-model invariant),
which is what lets edges be keyed by id. -/

structure Ing where
  id : String
  name : String
  category : Option String
  embedding : Option (List ℚ)
deriving DecidableEq

structure GraphState where
  ingredients : List Ing
  contains : List (String × String)
  classified : List (String × String)
  extra : List (String × String)
deriving DecidableEq

/-- Cypher `toLower(i.name)`, the grouping key of the duplicate query. -/
def lowerName (i : Ing) : String := pyLower i.name

/-- The duplicate-group query of `merge_duplicate_ingredients` (also the body
of `find_case_duplicates` in `normalize_ingredients.py`): group all
Ingredient nodes by lowercased name and keep the groups of size > 1. -/
def dupGroups (ings : List Ing) : List (String × List Ing) :=
  ((ings.map lowerName).dedup).filterMap fun ln =>
    let grp := ings.filter fun i => lowerName i == ln
    if grp.length > 1 then some (ln, grp) else none

/-- The first component of the Python sort key
`(x['category'] == 'Unknown', x['name'])`: only the exact string "Unknown"
counts; an empty or missing category compares as False (i.e. preferred). -/
def unknownFlag (i : Ing) : Bool := i.category == some "Unknown"

/-- The total preorder induced by the Python sort key
`(x['category'] == 'Unknown', x['name'])`: lexicographic on the
Unknown-flag (False before True) then on the name, compared by code
points as Python compares strings. -/
def mergeLE (a b : Ing) : Bool :=
  (!(unknownFlag a) && unknownFlag b)
    || ((unknownFlag a == unknownFlag b) && charsLE a.name.data b.name.data)

def mergeRel (a b : Ing) : Prop := mergeLE a b = true

instance : DecidableRel mergeRel := fun a b => instDecidableEqBool (mergeLE a b) true

instance : IsTotal Ing mergeRel :=
  ⟨fun a b => by
    unfold mergeRel mergeLE
    cases ha : unknownFlag a <;> cases hb : unknownFlag b <;>
      simp only [ha, hb, Bool.not_true, Bool.not_false, Bool.false_and, Bool.true_and,
        Bool.and_true, Bool.and_false, Bool.false_or, Bool.true_or, Bool.or_false, beq_self_eq_true]
    · exact charsLE_total _ _
    · left; trivial
    · right; trivial
    · exact charsLE_total _ _⟩

instance : IsTrans Ing mergeRel :=
  ⟨fun a b c hab hbc => by
    unfold mergeRel mergeLE at *
    cases ha : unknownFlag a <;> cases hb : unknownFlag b <;> cases hc : unknownFlag c <;>
      simp only [ha, hb, hc, Bool.not_true, Bool.not_false, Bool.false_and, Bool.true_and,
        Bool.and_true, Bool.and_false, Bool.false_or, Bool.true_or, Bool.or_false,
        beq_self_eq_true, Bool.true_and] at hab hbc ⊢ <;>
      first
      | rfl
      | exact charsLE_trans hab hbc
      | simp_all⟩

/-- Python's `sorted(ingredients, key=...)`: a stable sort with respect to
the key order (`sorted` is stable, and a stable sort is uniquely determined
by the key preorder and the input order). -/
def sortGroup (g : List Ing) : List Ing := List.insertionSort mergeRel g

/-- The survivor the merge script keeps, `sorted_ingredients[0]`. -/
def bestCandidate (g : List Ing) : Option Ing := (sortGroup g).head?

/-- The `(keep_id, merge_id)` pairs `merge_duplicate_ingredients` queues:
for every duplicate group, its best candidate against each remaining
member. -/
def mergeOps (ings : List Ing) : List (String × String) :=
  (dupGroups ings).flatMap fun g =>
    match sortGroup g.2 with
    | [] => []
    | best :: rest => rest.map fun d => (best.id, d.id)

/-- Whether a node with id `iid` exists (a Cypher `MATCH` on the id finds a
row). -/
def hasIng (g : GraphState) (iid : String) : Bool := g.ingredients.any fun i => i.id == iid

/-- Step 1 of the merge: transfer `CONTAINS` edges.  The Cypher matches every
edge `(recipe)-[r:CONTAINS]->(duplicate)` (one row per edge), checks per row
whether `(recipe)-[:CONTAINS]->(keep)` already existed, creates the edge on
`keep` only if not, and deletes `r`.  If either node is missing the `MATCH`
produces no rows and nothing happens. -/
def transferContains (g : GraphState) (merge_id keep_id : String) : GraphState :=
  if hasIng g merge_id && hasIng g keep_id then
    { g with contains :=
        (g.contains.filter fun e => !(e.2 == merge_id))
          ++ (((g.contains.filter fun e => e.2 == merge_id).filter
                fun e => !(g.contains.contains (e.1, keep_id))).map
              fun e => (e.1, keep_id)) }
  else g

/-- Step 2: transfer `CLASSIFIED_AS` edges, same idempotent-union shape with
the ingredient on the source side. -/
def transferClassified (g : GraphState) (merge_id keep_id : String) : GraphState :=
  if hasIng g merge_id && hasIng g keep_id then
    { g with classified :=
        (g.classified.filter fun e => !(e.1 == merge_id))
          ++ (((g.classified.filter fun e => e.1 == merge_id).filter
                fun e => !(g.classified.contains (keep_id, e.2))).map
              fun e => (keep_id, e.2)) }
  else g

/-- Step 3: copy the duplicate's embedding onto `keep` only when `keep` has
none and the duplicate has one. -/
def transferEmbedding (g : GraphState) (merge_id keep_id : String) : GraphState :=
  match (g.ingredients.find? fun i => i.id == merge_id).bind (fun dup => dup.embedding) with
  | none => g
  | some e =>
    { g with ingredients := g.ingredients.map fun i =>
        if i.id == keep_id && i.embedding.isNone then { i with embedding := some e } else i }

/-- Steps 1–3 in the order the script runs them. -/
def transferAll (g : GraphState) (merge_id keep_id : String) : GraphState :=
  transferEmbedding (transferClassified (transferContains g merge_id keep_id) merge_id keep_id)
    merge_id keep_id

/-- Number of relationships attached to the ingredient node `iid`. -/
def degree (g : GraphState) (iid : String) : ℕ :=
  (g.contains.filter fun e => e.2 == iid).length
    + (g.classified.filter fun e => e.1 == iid).length
    + (g.extra.filter fun e => e.1 == iid || e.2 == iid).length

/-- Step 4: `MATCH (duplicate {ingredient_id: $merge_id}) DELETE duplicate`.
Neo4j's plain `DELETE` (not `DETACH DELETE`) raises an error if the node
still has relationships; a missing node simply yields no rows. -/
def deleteIngredient (g : GraphState) (iid : String) : Except String GraphState :=
  if hasIng g iid then
    if degree g iid == 0 then
      .ok { g with ingredients := g.ingredients.filter fun i => !(i.id == iid) }
    else .error "Cannot delete node, because it still has relationships"
  else .ok g

/-- One queued merge operation: steps 1–4 inside the script's
`try`/`except`.  On an exception the steps already executed are kept (there
is no enclosing transaction), the failure is reported and the loser node is
left in place. -/
def mergePair (g : GraphState) (keep_id merge_id : String) : GraphState × Bool :=
  match deleteIngredient (transferAll g merge_id keep_id) merge_id with
  | .ok g4 => (g4, true)
  | .error _ => (transferAll g merge_id keep_id, false)

/-- The execution loop over the queued operations; the boolean list records
each operation's success (its count is the script's `success_count`). -/
def runOps : GraphState → List (String × String) → GraphState × List Bool
  | g, [] => (g, [])
  | g, op :: rest =>
    let p := mergePair g op.1 op.2
    let r := runOps p.1 rest
    (r.1, p.2 :: r.2)

/-- Model of `merge_duplicate_ingredients`: find the duplicate groups, queue the merge
operations, execute them in order. -/
def merge_duplicate_ingredients (g : GraphState) : GraphState × List Bool :=
  runOps g (mergeOps g.ingredients)

theorem charsLE_refl (as : List Char) : charsLE as as = true := by
  induction as with
  | nil => rfl
  | cons a as ih => rw [charsLE_cons]; exact .inr ⟨rfl, ih⟩

theorem mergeRel_refl (a : Ing) : mergeRel a a := by
  unfold mergeRel mergeLE
  rw [beq_self_eq_true, charsLE_refl]
  simp

theorem mergeRel_cases {a b : Ing} (h : mergeRel a b) :
    (unknownFlag a = false ∧ unknownFlag b = true) ∨
    (unknownFlag a = unknownFlag b ∧ charsLE a.name.data b.name.data = true) := by
  unfold mergeRel mergeLE at h
  rcases Bool.or_eq_true_iff.mp h with h | h
  · rcases Bool.and_eq_true_iff.mp h with ⟨h1, h2⟩
    exact .inl ⟨by simpa using h1, h2⟩
  · rcases Bool.and_eq_true_iff.mp h with ⟨h1, h2⟩
    exact .inr ⟨beq_iff_eq.mp h1, h2⟩

/-- C3 counterexample: in a group containing an empty-category node "a" and a
properly categorised node "b", the script's survivor is the empty-category
node (the sort key only tests `category == 'Unknown'`), although a node
whose category is neither "Unknown" nor empty exists — refuting the claimed
policy. -/
theorem survivor_empty_category_cex :
    bestCandidate [⟨"x1", "a", some "", none⟩, ⟨"y1", "b", some "Liquor", none⟩]
      = some ⟨"x1", "a", some "", none⟩ ∧
    (Ing.mk "x1" "a" (some "") none).category = some "" ∧
    (Ing.mk "y1" "b" (some "Liquor") none).category ≠ some "Unknown" ∧
    (Ing.mk "y1" "b" (some "Liquor") none).category ≠ some "" := by
  refine ⟨?_, rfl, by decide, by decide⟩
  decide

/-- C3 (amended): the survivor is the head of the stable sort by the key
`(category == 'Unknown', name)`: it is minimal in that lexicographic
preorder, so a node whose category is not the exact string "Unknown" is
preferred whenever one exists — but a node with an empty or missing
category also counts as preferred — and among nodes with the same
Unknown-flag the code-point-first name wins; the choice is a deterministic
function of the group's row order. -/
theorem survivor_selection_policy (g : List Ing) (hne : g ≠ []) :
    ∃ best, bestCandidate g = some best ∧
      (∀ i ∈ g, mergeRel best i) ∧
      ((∃ i ∈ g, unknownFlag i = false) → unknownFlag best = false) ∧
      (∀ i ∈ g, unknownFlag i = unknownFlag best →
        charsLE best.name.data i.name.data = true) := by
  have hperm : (sortGroup g).Perm g := List.perm_insertionSort mergeRel g
  have hsorted : List.Sorted mergeRel (sortGroup g) := List.sorted_insertionSort mergeRel g
  obtain ⟨best, t, hbt⟩ : ∃ best t, sortGroup g = best :: t := by
    cases hsg : sortGroup g with
    | nil =>
      exfalso
      apply hne
      have hgp : g.Perm [] := by rw [← hsg]; exact hperm.symm
      exact hgp.eq_nil
    | cons b t => exact ⟨b, t, rfl⟩
  have hmin : ∀ i ∈ g, mergeRel best i := by
    intro i hi
    have : i ∈ sortGroup g := hperm.mem_iff.mpr hi
    rw [hbt] at this
    rcases List.mem_cons.mp this with h | h
    · subst h; exact mergeRel_refl i
    · rw [hbt] at hsorted
      exact List.rel_of_sorted_cons hsorted i h
  refine ⟨best, by rw [bestCandidate, hbt]; rfl, hmin, ?_, ?_⟩
  · rintro ⟨i, hi, hflag⟩
    rcases mergeRel_cases (hmin i hi) with ⟨h1, h2⟩ | ⟨h1, _⟩
    · exact h1
    · rw [h1, hflag]
  · intro i hi hflag
    rcases mergeRel_cases (hmin i hi) with ⟨h1, h2⟩ | ⟨_, h2⟩
    · rw [hflag] at h2; rw [h2] at h1; exact absurd h1 (by simp)
    · exact h2

/-- C3 witness: the amended theorem applied to a concrete two-node group. -/
theorem survivor_selection_policy_witness :
    ∃ best,
      bestCandidate [⟨"u1", "a", some "Unknown", none⟩, ⟨"v1", "b", some "Liquor", none⟩]
        = some best ∧ unknownFlag best = false := by
  obtain ⟨best, h1, _, h3, _⟩ :=
    survivor_selection_policy
      [⟨"u1", "a", some "Unknown", none⟩, ⟨"v1", "b", some "Liquor", none⟩] (by simp)
  exact ⟨best, h1, h3 ⟨⟨"v1", "b", some "Liquor", none⟩, by simp, by decide⟩⟩

/-- C6: the loser node is deleted only with zero remaining relationships.
If any relationship is still attached after the transfer steps, the plain
`DELETE` raises, the script reports the failure for that pair, and the
final state is exactly the post-transfer state — the loser is still present
and nothing is cascade-deleted. -/
theorem loser_delete_requires_zero_degree (g : GraphState) (k m : String) :
    ((mergePair g k m).2 = true →
      hasIng (transferAll g m k) m = false ∨ degree (transferAll g m k) m = 0) ∧
    (hasIng (transferAll g m k) m = true → degree (transferAll g m k) m ≠ 0 →
      mergePair g k m = (transferAll g m k, false) ∧
        hasIng (mergePair g k m).1 m = true) := by
  have hdel : ∀ (h1 : hasIng (transferAll g m k) m = true)
      (h2 : degree (transferAll g m k) m ≠ 0),
      deleteIngredient (transferAll g m k) m
        = .error "Cannot delete node, because it still has relationships" := by
    intro h1 h2
    rw [deleteIngredient, h1, if_pos rfl,
      if_neg (by rw [beq_iff_eq]; exact h2)]
  constructor
  · intro hok
    by_cases h1 : hasIng (transferAll g m k) m = true
    · by_cases h2 : degree (transferAll g m k) m = 0
      · exact .inr h2
      · rw [mergePair, hdel h1 h2] at hok
        exact absurd hok (by simp)
    · exact .inl (by simpa using h1)
  · intro h1 h2
    have he := hdel h1 h2
    rw [mergePair, he]
    exact ⟨rfl, h1⟩

/-- Concrete state for the C6 witness: the loser M carries one relationship
of a type the transfer steps do not touch. -/
def gC6 : GraphState :=
  ⟨[⟨"K", "x", none, none⟩, ⟨"M", "X", none, none⟩], [], [], [("M", "other")]⟩

/-- C6 witness: on `gC6` the merge of pair (K, M) aborts, reports failure
and leaves the loser in place. -/
theorem loser_delete_requires_zero_degree_witness :
    mergePair gC6 "K" "M" = (transferAll gC6 "M" "K", false) ∧
    hasIng (mergePair gC6 "K" "M").1 "M" = true :=
  (loser_delete_requires_zero_degree gC6 "K" "M").2 (by decide) (by decide)

/-! ### Edge multiplicities for the transfer steps -/

/-- Number of occurrences of one edge in an edge multiset. -/
def edgeCount (l : List (String × String)) (e : String × String) : ℕ :=
  (l.filter fun x => x == e).length

/-- Number of edges with a given source endpoint. -/
def srcCount (l : List (String × String)) (R : String) : ℕ :=
  (l.filter fun x => x.1 == R).length

/-- Number of edges with a given target endpoint. -/
def tgtCount (l : List (String × String)) (c : String) : ℕ :=
  (l.filter fun x => x.2 == c).length

theorem edgeCount_cons (x : String × String) (l : List (String × String)) (e) :
    edgeCount (x :: l) e = (if x = e then 1 else 0) + edgeCount l e := by
  by_cases h : x = e <;> simp [edgeCount, List.filter_cons, h, Nat.add_comm]

theorem edgeCount_append (A B : List (String × String)) (e) :
    edgeCount (A ++ B) e = edgeCount A e + edgeCount B e := by
  simp [edgeCount, List.filter_append]

theorem edgeCount_eq_zero {l : List (String × String)} {e} (h : ∀ x ∈ l, x ≠ e) :
    edgeCount l e = 0 := by
  rw [edgeCount, List.length_eq_zero, List.filter_eq_nil]
  intro a ha
  simpa using h a ha

theorem edgeCount_pos_of_mem {l : List (String × String)} {e} (h : e ∈ l) :
    0 < edgeCount l e := by
  induction l with
  | nil => cases h
  | cons x l ih =>
    rw [edgeCount_cons]
    rcases List.mem_cons.mp h with h1 | h1
    · rw [if_pos h1.symm]; omega
    · have := ih h1; omega

theorem edgeCount_filter (p : String × String → Bool) (l : List (String × String)) (e) :
    edgeCount (l.filter p) e = if p e = true then edgeCount l e else 0 := by
  induction l with
  | nil => by_cases h : p e = true <;> simp [edgeCount, h]
  | cons x l ih =>
    by_cases hx : p x = true
    · rw [List.filter_cons_of_pos hx, edgeCount_cons, edgeCount_cons, ih]
      by_cases he : x = e
      · subst he; simp [hx]
      · simp [he]
    · rw [List.filter_cons_of_neg hx, ih, edgeCount_cons]

      by_cases he : x = e
      · subst he; rw [if_neg hx, if_neg hx]
      · simp [he]

theorem srcCount_cons (x : String × String) (l : List (String × String)) (R) :
    srcCount (x :: l) R = (if x.1 = R then 1 else 0) + srcCount l R := by
  by_cases h : x.1 = R <;> simp [srcCount, List.filter_cons, h, Nat.add_comm]

theorem edgeCount_map_snd (l : List (String × String)) (k R : String) :
    edgeCount (l.map fun x => (x.1, k)) (R, k) = srcCount l R := by
  induction l with
  | nil => rfl
  | cons x l ih =>
    rw [List.map_cons, edgeCount_cons, ih, srcCount_cons]
    by_cases h : x.1 = R
    · rw [if_pos (by rw [h]), if_pos h]
    · rw [if_neg (by simp [h]), if_neg h]

theorem edgeCount_map_snd_ne (l : List (String × String)) (k R m : String) (h : m ≠ k) :
    edgeCount (l.map fun x => (x.1, k)) (R, m) = 0 := by
  apply edgeCount_eq_zero
  intro x hx
  obtain ⟨y, _, rfl⟩ := List.mem_map.mp hx
  intro hE
  exact h ((Prod.mk.injEq _ _ _ _).mp hE).2.symm

theorem srcCount_filter_true {q : String × String → Bool} {l : List (String × String)} {R}
    (h : ∀ x ∈ l, x.1 = R → q x = true) : srcCount (l.filter q) R = srcCount l R := by
  induction l with
  | nil => rfl
  | cons x l ih =>
    have ih' := ih fun y hy => h y (List.mem_cons_of_mem x hy)
    by_cases hx : q x = true
    · rw [List.filter_cons_of_pos hx, srcCount_cons, srcCount_cons, ih']
    · rw [List.filter_cons_of_neg hx, srcCount_cons, ih',
        if_neg (fun h1 => hx (h x (List.mem_cons_self x l) h1))]
      omega

theorem srcCount_filter_false {q : String × String → Bool} {l : List (String × String)} {R}
    (h : ∀ x ∈ l, x.1 = R → q x = false) : srcCount (l.filter q) R = 0 := by
  induction l with
  | nil => rfl
  | cons x l ih =>
    have ih' := ih fun y hy => h y (List.mem_cons_of_mem x hy)
    by_cases hx : q x = true
    · rw [List.filter_cons_of_pos hx, srcCount_cons, ih',
        if_neg (fun h1 => by rw [h x (List.mem_cons_self x l) h1] at hx; cases hx)]
    · rw [List.filter_cons_of_neg hx, ih']

theorem srcCount_filter_snd (C : List (String × String)) (m R : String) :
    srcCount (C.filter fun e => e.2 == m) R = edgeCount C (R, m) := by
  induction C with
  | nil => rfl
  | cons x l ih =>
    by_cases h2 : x.2 = m
    · rw [List.filter_cons_of_pos (by simp [h2]), srcCount_cons, ih, edgeCount_cons]
      by_cases h1 : x.1 = R
      · rw [if_pos h1, if_pos (by rw [← h1, ← h2])]
      · rw [if_neg h1, if_neg (by simp [Prod.ext_iff, h1])]
    · rw [List.filter_cons_of_neg (by simp [h2]), ih, edgeCount_cons,
        if_neg (by simp [Prod.ext_iff, h2])]
      omega

theorem tgtCount_cons (x : String × String) (l : List (String × String)) (c) :
    tgtCount (x :: l) c = (if x.2 = c then 1 else 0) + tgtCount l c := by
  by_cases h : x.2 = c <;> simp [tgtCount, List.filter_cons, h, Nat.add_comm]

theorem edgeCount_map_fst (l : List (String × String)) (k c : String) :
    edgeCount (l.map fun x => (k, x.2)) (k, c) = tgtCount l c := by
  induction l with
  | nil => rfl
  | cons x l ih =>
    rw [List.map_cons, edgeCount_cons, ih, tgtCount_cons]
    by_cases h : x.2 = c
    · rw [if_pos (by rw [h]), if_pos h]
    · rw [if_neg (by simp [h]), if_neg h]

theorem edgeCount_map_fst_ne (l : List (String × String)) (k m c : String) (h : m ≠ k) :
    edgeCount (l.map fun x => (k, x.2)) (m, c) = 0 := by
  apply edgeCount_eq_zero
  intro x hx
  obtain ⟨y, _, rfl⟩ := List.mem_map.mp hx
  intro hE
  exact h ((Prod.mk.injEq _ _ _ _).mp hE).1.symm

theorem tgtCount_filter_true {q : String × String → Bool} {l : List (String × String)} {c}
    (h : ∀ x ∈ l, x.2 = c → q x = true) : tgtCount (l.filter q) c = tgtCount l c := by
  induction l with
  | nil => rfl
  | cons x l ih =>
    have ih' := ih fun y hy => h y (List.mem_cons_of_mem x hy)
    by_cases hx : q x = true
    · rw [List.filter_cons_of_pos hx, tgtCount_cons, tgtCount_cons, ih']
    · rw [List.filter_cons_of_neg hx, tgtCount_cons, ih',
        if_neg (fun h1 => hx (h x (List.mem_cons_self x l) h1))]
      omega

theorem tgtCount_filter_false {q : String × String → Bool} {l : List (String × String)} {c}
    (h : ∀ x ∈ l, x.2 = c → q x = false) : tgtCount (l.filter q) c = 0 := by
  induction l with
  | nil => rfl
  | cons x l ih =>
    have ih' := ih fun y hy => h y (List.mem_cons_of_mem x hy)
    by_cases hx : q x = true
    · rw [List.filter_cons_of_pos hx, tgtCount_cons, ih',
        if_neg (fun h1 => by rw [h x (List.mem_cons_self x l) h1] at hx; cases hx)]
    · rw [List.filter_cons_of_neg hx, ih']

theorem tgtCount_filter_fst (C : List (String × String)) (m c : String) :
    tgtCount (C.filter fun e => e.1 == m) c = edgeCount C (m, c) := by
  induction C with
  | nil => rfl
  | cons x l ih =>
    by_cases h1 : x.1 = m
    · rw [List.filter_cons_of_pos (by simp [h1]), tgtCount_cons, ih, edgeCount_cons]
      by_cases h2 : x.2 = c
      · rw [if_pos h2, if_pos (by rw [← h1, ← h2])]
      · rw [if_neg h2, if_neg (by simp [Prod.ext_iff, h2])]
    · rw [List.filter_cons_of_neg (by simp [h1]), ih, edgeCount_cons,
        if_neg (by simp [Prod.ext_iff, h1])]
      omega

theorem contains_true_iff {l : List (String × String)} {e : String × String} :
    l.contains e = true ↔ e ∈ l := by
  simp

theorem not_mem_edgeCount_zero {l : List (String × String)} {e} (h : e ∉ l) :
    edgeCount l e = 0 :=
  edgeCount_eq_zero fun x hx he => h (he ▸ hx)

theorem transferContains_ingredients (g : GraphState) (m k : String) :
    (transferContains g m k).ingredients = g.ingredients := by
  rw [transferContains]; split <;> rfl

theorem transferContains_classified (g : GraphState) (m k : String) :
    (transferContains g m k).classified = g.classified := by
  rw [transferContains]; split <;> rfl

theorem transferContains_extra (g : GraphState) (m k : String) :
    (transferContains g m k).extra = g.extra := by
  rw [transferContains]; split <;> rfl

theorem transferClassified_ingredients (g : GraphState) (m k : String) :
    (transferClassified g m k).ingredients = g.ingredients := by
  rw [transferClassified]; split <;> rfl

theorem transferClassified_contains (g : GraphState) (m k : String) :
    (transferClassified g m k).contains = g.contains := by
  rw [transferClassified]; split <;> rfl

theorem transferClassified_extra (g : GraphState) (m k : String) :
    (transferClassified g m k).extra = g.extra := by
  rw [transferClassified]; split <;> rfl

theorem transferEmbedding_contains (g : GraphState) (m k : String) :
    (transferEmbedding g m k).contains = g.contains := by
  rw [transferEmbedding]
  cases hfind : (g.ingredients.find? fun i => i.id == m).bind (fun dup => dup.embedding) with
  | none => rfl
  | some e => rfl

theorem transferEmbedding_classified (g : GraphState) (m k : String) :
    (transferEmbedding g m k).classified = g.classified := by
  rw [transferEmbedding]
  cases hfind : (g.ingredients.find? fun i => i.id == m).bind (fun dup => dup.embedding) with
  | none => rfl
  | some e => rfl

theorem transferEmbedding_extra (g : GraphState) (m k : String) :
    (transferEmbedding g m k).extra = g.extra := by
  rw [transferEmbedding]
  cases hfind : (g.ingredients.find? fun i => i.id == m).bind (fun dup => dup.embedding) with
  | none => rfl
  | some e => rfl

theorem hasIng_transferContains (g : GraphState) (m k iid : String) :
    hasIng (transferContains g m k) iid = hasIng g iid := by
  rw [hasIng, transferContains_ingredients, hasIng]

theorem transferAll_contains (g : GraphState) (m k : String) :
    (transferAll g m k).contains = (transferContains g m k).contains := by
  rw [transferAll, transferEmbedding_contains, transferClassified_contains]

theorem transferAll_classified (g : GraphState) (m k : String) :
    (transferAll g m k).classified
      = (transferClassified (transferContains g m k) m k).classified := by
  rw [transferAll, transferEmbedding_classified]

theorem transferContains_counts (g : GraphState) (R m k : String)
    (hm : hasIng g m = true) (hk : hasIng g k = true) (hkm : m ≠ k)
    (hRm : edgeCount g.contains (R, m) = 1) (hRk : edgeCount g.contains (R, k) ≤ 1) :
    edgeCount (transferContains g m k).contains (R, k) = 1 ∧
    edgeCount (transferContains g m k).contains (R, m) = 0 := by
  rw [transferContains, if_pos (by rw [hm, hk]; rfl)]
  constructor
  · rw [edgeCount_append]
    have hfil : edgeCount (g.contains.filter fun e => !(e.2 == m)) (R, k)
        = edgeCount g.contains (R, k) := by
      rw [edgeCount_filter, if_pos (by simp [Ne.symm hkm])]
    rw [hfil, edgeCount_map_snd]
    by_cases hmem : (R, k) ∈ g.contains
    · have h1 : edgeCount g.contains (R, k) = 1 :=
        le_antisymm hRk (edgeCount_pos_of_mem hmem)
      have hco : g.contains.contains (R, k) = true := contains_true_iff.mpr hmem
      have h2 : srcCount ((g.contains.filter fun e => e.2 == m).filter
          fun e => !(g.contains.contains (e.1, k))) R = 0 := by
        apply srcCount_filter_false
        intro x _ hx1
        rw [hx1, hco]
        rfl
      omega
    · have h1 : edgeCount g.contains (R, k) = 0 := not_mem_edgeCount_zero hmem
      have hco : g.contains.contains (R, k) = false := by
        rw [Bool.eq_false_iff]
        intro hc
        exact hmem (contains_true_iff.mp hc)
      have h2 : srcCount ((g.contains.filter fun e => e.2 == m).filter
          fun e => !(g.contains.contains (e.1, k))) R
          = srcCount (g.contains.filter fun e => e.2 == m) R := by
        apply srcCount_filter_true
        intro x _ hx1
        rw [hx1, hco]
        rfl
      rw [h2, srcCount_filter_snd] at *
      omega
  · rw [edgeCount_append]
    have h1 : edgeCount (g.contains.filter fun e => !(e.2 == m)) (R, m) = 0 := by
      rw [edgeCount_filter, if_neg (by simp)]
    have h2 : edgeCount (((g.contains.filter fun e => e.2 == m).filter
        fun e => !(g.contains.contains (e.1, k))).map fun e => (e.1, k)) (R, m) = 0 :=
      edgeCount_map_snd_ne _ _ _ _ hkm
    omega

theorem transferClassified_counts (g : GraphState) (m k c : String)
    (hm : hasIng g m = true) (hk : hasIng g k = true) (hkm : m ≠ k)
    (hmc : edgeCount g.classified (m, c) = 1) (hkc : edgeCount g.classified (k, c) ≤ 1) :
    edgeCount (transferClassified g m k).classified (k, c) = 1 ∧
    edgeCount (transferClassified g m k).classified (m, c) = 0 := by
  rw [transferClassified, if_pos (by rw [hm, hk]; rfl)]
  constructor
  · rw [edgeCount_append]
    have hfil : edgeCount (g.classified.filter fun e => !(e.1 == m)) (k, c)
        = edgeCount g.classified (k, c) := by
      rw [edgeCount_filter, if_pos (by simp [Ne.symm hkm])]
    rw [hfil, edgeCount_map_fst]
    by_cases hmem : (k, c) ∈ g.classified
    · have h1 : edgeCount g.classified (k, c) = 1 :=
        le_antisymm hkc (edgeCount_pos_of_mem hmem)
      have hco : g.classified.contains (k, c) = true := contains_true_iff.mpr hmem
      have h2 : tgtCount ((g.classified.filter fun e => e.1 == m).filter
          fun e => !(g.classified.contains (k, e.2))) c = 0 := by
        apply tgtCount_filter_false
        intro x _ hx2
        rw [hx2, hco]
        rfl
      omega
    · have h1 : edgeCount g.classified (k, c) = 0 := not_mem_edgeCount_zero hmem
      have hco : g.classified.contains (k, c) = false := by
        rw [Bool.eq_false_iff]
        intro hc
        exact hmem (contains_true_iff.mp hc)
      have h2 : tgtCount ((g.classified.filter fun e => e.1 == m).filter
          fun e => !(g.classified.contains (k, e.2))) c
          = tgtCount (g.classified.filter fun e => e.1 == m) c := by
        apply tgtCount_filter_true
        intro x _ hx2
        rw [hx2, hco]
        rfl
      rw [h2, tgtCount_filter_fst] at *
      omega
  · rw [edgeCount_append]
    have h1 : edgeCount (g.classified.filter fun e => !(e.1 == m)) (m, c) = 0 := by
      rw [edgeCount_filter, if_neg (by simp)]
    have h2 : edgeCount (((g.classified.filter fun e => e.1 == m).filter
        fun e => !(g.classified.contains (k, e.2))).map fun e => (k, e.2)) (m, c) = 0 :=
      edgeCount_map_fst_ne _ _ _ _ hkm
    omega

/-- C4: under the data-model invariant that no duplicate edges pre-exist
(each Recipe has at most one `CONTAINS` edge to the survivor and exactly one
to the loser it contains; likewise for `CLASSIFIED_AS`), the transfer steps
leave the Recipe with exactly one `CONTAINS` edge to the survivor — also
when the Recipe already contained the survivor — and none to the loser, and
the Category with exactly one incoming `CLASSIFIED_AS` edge from the
survivor and none from the loser. -/
theorem merge_edge_transfer_idempotent_union (g : GraphState) (R m k c : String)
    (hm : hasIng g m = true) (hk : hasIng g k = true) (hkm : m ≠ k)
    (hRm : edgeCount g.contains (R, m) = 1) (hRk : edgeCount g.contains (R, k) ≤ 1)
    (hmc : edgeCount g.classified (m, c) = 1) (hkc : edgeCount g.classified (k, c) ≤ 1) :
    edgeCount (transferAll g m k).contains (R, k) = 1 ∧
    edgeCount (transferAll g m k).contains (R, m) = 0 ∧
    edgeCount (transferAll g m k).classified (k, c) = 1 ∧
    edgeCount (transferAll g m k).classified (m, c) = 0 := by
  have hcc := transferContains_counts g R m k hm hk hkm hRm hRk
  have hcl := transferClassified_counts (transferContains g m k) m k c
    (by rw [hasIng_transferContains]; exact hm)
    (by rw [hasIng_transferContains]; exact hk) hkm
    (by rw [transferContains_classified]; exact hmc)
    (by rw [transferContains_classified]; exact hkc)
  rw [transferAll_contains, transferAll_classified]
  exact ⟨hcc.1, hcc.2, hcl.1, hcl.2⟩

/-- Concrete state for the C4 witness: recipe r1 contains both the loser A
and the survivor B; the loser is classified under category c1, the survivor
not yet. -/
def gC4 : GraphState :=
  ⟨[⟨"A", "Absinthe", some "Unknown", none⟩, ⟨"B", "absinthe", some "Liquor", none⟩],
    [("r1", "A"), ("r1", "B")], [("A", "c1")], []⟩

/-- C4 witness: the transfer theorem applied to `gC4`. -/
theorem merge_edge_transfer_idempotent_union_witness :
    edgeCount (transferAll gC4 "A" "B").contains ("r1", "B") = 1 ∧
    edgeCount (transferAll gC4 "A" "B").contains ("r1", "A") = 0 ∧
    edgeCount (transferAll gC4 "A" "B").classified ("B", "c1") = 1 ∧
    edgeCount (transferAll gC4 "A" "B").classified ("A", "c1") = 0 :=
  merge_edge_transfer_idempotent_union gC4 "r1" "A" "B" "c1"
    (by decide) (by decide) (by decide) (by decide) (by decide) (by decide) (by decide)

/-! ### Idempotence of the full merge pass -/

/-- The (id, name) signature of an ingredient node: the part of the state
the duplicate-group query depends on.  Transfers may change embeddings but
never ids or names. -/
def sig (i : Ing) : String × String := (i.id, i.name)

theorem map_sig_filter (l : List Ing) (p : Ing → Bool) (q : String × String → Bool)
    (hpq : ∀ i, p i = q (sig i)) : (l.filter p).map sig = (l.map sig).filter q := by
  induction l with
  | nil => rfl
  | cons x l ih =>
    rw [List.map_cons, List.filter_cons, List.filter_cons, ← hpq]
    by_cases h : p x = true
    · rw [if_pos h, if_pos h, List.map_cons, ih]
    · rw [if_neg h, if_neg h, ih]

theorem transferEmbedding_sig (g : GraphState) (m k : String) :
    ((transferEmbedding g m k).ingredients).map sig = g.ingredients.map sig := by
  rw [transferEmbedding]
  cases hfind : (g.ingredients.find? fun i => i.id == m).bind (fun dup => dup.embedding) with
  | none => rfl
  | some e =>
    show (g.ingredients.map _).map sig = _
    rw [List.map_map]
    apply List.map_congr_left
    intro i _
    show sig (if (i.id == k && i.embedding.isNone) = true then _ else i) = sig i
    split <;> simp [sig]

theorem transferAll_sig (g : GraphState) (m k : String) :
    ((transferAll g m k).ingredients).map sig = g.ingredients.map sig := by
  rw [transferAll, transferEmbedding_sig, transferClassified_ingredients,
    transferContains_ingredients]

theorem any_sig (l : List Ing) (m : String) :
    ((l.map sig).any fun s => s.1 == m) = l.any fun i => i.id == m := by
  induction l with
  | nil => rfl
  | cons x l ih => rw [List.map_cons, List.any_cons, List.any_cons, ih]; rfl

theorem filter_eq_self_of_any_false {S : List (String × String)} {m : String}
    (h : (S.any fun s => s.1 == m) = false) :
    (S.filter fun s => !(s.1 == m)) = S := by
  apply List.filter_eq_self.mpr
  intro s hs
  have := List.any_eq_false.mp h s hs
  simpa using this

theorem mergePair_sig_ok {g : GraphState} {k m : String}
    (hok : (mergePair g k m).2 = true) :
    ((mergePair g k m).1.ingredients).map sig
      = ((g.ingredients.map sig).filter fun s => !(s.1 == m)) := by
  have hsig := transferAll_sig g m k
  rw [mergePair] at hok ⊢
  revert hok
  cases hdel : deleteIngredient (transferAll g m k) m with
  | error e => intro hok; exact absurd hok (by simp)
  | ok g4 =>
    intro _
    rw [deleteIngredient] at hdel
    by_cases hpres : hasIng (transferAll g m k) m = true
    · rw [hpres, if_pos rfl] at hdel
      by_cases hdeg : (degree (transferAll g m k) m == 0) = true
      · rw [if_pos hdeg] at hdel
        obtain rfl : _ = g4 := Except.ok.inj hdel
        show ((transferAll g m k).ingredients.filter fun i => !(i.id == m)).map sig = _
        rw [map_sig_filter ((transferAll g m k).ingredients) (fun i => !(i.id == m))
          (fun s => !(s.1 == m)) (fun i => rfl), hsig]
      · rw [if_neg hdeg] at hdel
        cases hdel
    · rw [show hasIng (transferAll g m k) m = false from Bool.eq_false_iff.mpr hpres,
        if_neg (by simp)] at hdel
      obtain rfl : _ = g4 := Except.ok.inj hdel
      show ((transferAll g m k).ingredients).map sig = _
      rw [hsig, filter_eq_self_of_any_false]
      rw [← hsig, any_sig]
      exact Bool.eq_false_iff.mpr hpres

theorem runOps_nil (g : GraphState) : runOps g [] = (g, []) := rfl

theorem runOps_cons (g : GraphState) (op : String × String) (rest : List (String × String)) :
    runOps g (op :: rest)
      = ((runOps (mergePair g op.1 op.2).1 rest).1,
          (mergePair g op.1 op.2).2 :: (runOps (mergePair g op.1 op.2).1 rest).2) := rfl

theorem runOps_sig (ops : List (String × String)) (g : GraphState)
    (hok : ∀ b ∈ (runOps g ops).2, b = true) :
    ((runOps g ops).1.ingredients).map sig
      = ((g.ingredients.map sig).filter fun s => !(decide (s.1 ∈ ops.map Prod.snd))) := by
  induction ops generalizing g with
  | nil =>
    rw [runOps_nil]
    refine (List.filter_eq_self.mpr ?_).symm
    intro s _
    simp
  | cons op rest ih =>
    rw [runOps_cons] at hok ⊢
    have hhead : (mergePair g op.1 op.2).2 = true :=
      hok _ (List.mem_cons_self _ _)
    have htail : ∀ b ∈ (runOps (mergePair g op.1 op.2).1 rest).2, b = true :=
      fun b hb => hok b (List.mem_cons_of_mem _ hb)
    rw [ih _ htail, mergePair_sig_ok hhead, List.filter_filter]
    apply List.filter_congr
    intro s _
    by_cases h1 : s.1 = op.2 <;> by_cases h2 : s.1 ∈ rest.map Prod.snd <;>
      simp [h1, h2]

theorem length_class_sig (ings : List Ing) (ln : String) :
    ((ings.filter fun i => lowerName i == ln)).length
      = ((ings.map sig).filter fun s => pyLower s.2 == ln).length := by
  rw [← List.length_map ((ings.filter fun i => lowerName i == ln)) sig,
    map_sig_filter ings (fun i => lowerName i == ln) (fun s => pyLower s.2 == ln)
      (fun i => rfl)]

theorem filter_swap (S : List (String × String)) (a b : String × String → Bool) :
    (S.filter a).filter b = (S.filter b).filter a := by
  rw [List.filter_filter, List.filter_filter]
  exact List.filter_congr fun x _ => by rw [Bool.and_comm]

theorem dupGroups_eq_nil {ings : List Ing}
    (h : ∀ ln, ((ings.filter fun i => lowerName i == ln)).length ≤ 1) :
    dupGroups ings = [] := by
  rw [dupGroups, List.filterMap_eq_nil]
  intro ln _
  show (if 1 < (ings.filter fun i => lowerName i == ln).length
      then some (ln, ings.filter fun i => lowerName i == ln) else none) = none
  rw [if_neg (not_lt.mpr (h ln))]

theorem group_mem_dupGroups {ings : List Ing} {ln : String}
    (h : 1 < ((ings.filter fun i => lowerName i == ln)).length) :
    (ln, ings.filter fun i => lowerName i == ln) ∈ dupGroups ings := by
  obtain ⟨i, hi⟩ : ∃ i, i ∈ ings.filter fun i => lowerName i == ln := by
    cases hcl : ings.filter fun i => lowerName i == ln with
    | nil => rw [hcl] at h; simp at h
    | cons x t => exact ⟨x, List.mem_cons_self x t⟩
  have hmem : i ∈ ings := List.mem_of_mem_filter hi
  have hln : lowerName i = ln := by simpa using List.of_mem_filter hi
  rw [dupGroups]
  apply List.mem_filterMap.mpr
  refine ⟨ln, List.mem_dedup.mpr (hln ▸ List.mem_map_of_mem lowerName hmem), ?_⟩
  show (if 1 < (ings.filter fun i => lowerName i == ln).length
      then some (ln, ings.filter fun i => lowerName i == ln) else none) = _
  rw [if_pos h]

/-- C5: if one complete merge pass succeeds (every queued operation reports
success), the resulting state contains no duplicate groups —
`findDuplicateGroups` returns the empty list — and a second run queues no
operations and performs no writes: it returns the state unchanged with an
empty success list. -/
theorem merge_pass_idempotent (g : GraphState)
    (hok : ∀ b ∈ (merge_duplicate_ingredients g).2, b = true) :
    dupGroups (merge_duplicate_ingredients g).1.ingredients = [] ∧
    merge_duplicate_ingredients (merge_duplicate_ingredients g).1
      = ((merge_duplicate_ingredients g).1, []) := by
  have hS : ((merge_duplicate_ingredients g).1.ingredients).map sig
      = ((g.ingredients.map sig).filter
          fun s => !(decide (s.1 ∈ (mergeOps g.ingredients).map Prod.snd))) :=
    runOps_sig _ g hok
  have hmain : dupGroups (merge_duplicate_ingredients g).1.ingredients = [] := by
    apply dupGroups_eq_nil
    intro ln
    rw [length_class_sig, hS, filter_swap]
    by_cases hlen : 1 < ((g.ingredients.filter fun i => lowerName i == ln)).length
    · obtain ⟨best, rest, hsort⟩ :
          ∃ best rest, sortGroup (g.ingredients.filter fun i => lowerName i == ln)
            = best :: rest := by
        cases hs : sortGroup (g.ingredients.filter fun i => lowerName i == ln) with
        | nil =>
          exfalso
          have hp := List.perm_insertionSort mergeRel
            (g.ingredients.filter fun i => lowerName i == ln)
          rw [show sortGroup (g.ingredients.filter fun i => lowerName i == ln)
              = List.insertionSort mergeRel
                (g.ingredients.filter fun i => lowerName i == ln) from rfl] at hs
          rw [hs] at hp
          have := hp.length_eq
          simp at this
          omega
        | cons b t => exact ⟨b, t, rfl⟩
      have hgp : (g.ingredients.filter fun i => lowerName i == ln).Perm (best :: rest) := by
        rw [← hsort]
        exact (List.perm_insertionSort mergeRel _).symm
      have hCperm : (((g.ingredients.map sig).filter fun s => pyLower s.2 == ln)).Perm
          ((best :: rest).map sig) := by
        rw [← map_sig_filter g.ingredients (fun i => lowerName i == ln)
            (fun s => pyLower s.2 == ln) (fun i => rfl)]
        exact hgp.map sig
      rw [(hCperm.filter
        (fun s => !(decide (s.1 ∈ (mergeOps g.ingredients).map Prod.snd)))).length_eq]
      rw [List.map_cons, List.filter_cons]
      have hrest : ((rest.map sig).filter
          fun s => !(decide (s.1 ∈ (mergeOps g.ingredients).map Prod.snd))) = [] := by
        rw [List.filter_eq_nil]
        intro s hs
        obtain ⟨d, hd, rfl⟩ := List.mem_map.mp hs
        have hdid : d.id ∈ (mergeOps g.ingredients).map Prod.snd := by
          apply List.mem_map.mpr
          refine ⟨(best.id, d.id), ?_, rfl⟩
          rw [mergeOps]
          apply List.mem_flatMap.mpr
          refine ⟨(ln, g.ingredients.filter fun i => lowerName i == ln),
            group_mem_dupGroups hlen, ?_⟩
          dsimp only
          rw [hsort]
          exact List.mem_map_of_mem _ hd
        simp [sig, hdid]
      rw [hrest]
      split <;> simp
    · push_neg at hlen
      calc (((g.ingredients.map sig).filter fun s => pyLower s.2 == ln).filter
              fun s => !(decide (s.1 ∈ (mergeOps g.ingredients).map Prod.snd))).length
          ≤ ((g.ingredients.map sig).filter fun s => pyLower s.2 == ln).length :=
            List.length_filter_le _ _
        _ = ((g.ingredients.filter fun i => lowerName i == ln)).length :=
            (length_class_sig _ _).symm
        _ ≤ 1 := hlen
  have hops : mergeOps (merge_duplicate_ingredients g).1.ingredients = [] := by
    rw [mergeOps, hmain]
    rfl
  exact ⟨hmain, by
    rw [show merge_duplicate_ingredients (merge_duplicate_ingredients g).1
        = runOps (merge_duplicate_ingredients g).1
            (mergeOps (merge_duplicate_ingredients g).1.ingredients) from rfl,
      hops, runOps_nil]⟩

/-- Concrete state for the C5 witness: the Absinthe/absinthe pair from the
repository's own verification query, both contained in recipe R. -/
def gC5 : GraphState :=
  ⟨[⟨"A", "Absinthe", some "Unknown", none⟩, ⟨"B", "absinthe", some "Liquor", none⟩],
    [("R", "A"), ("R", "B")], [], []⟩

/-- C5 witness: the idempotence theorem applied to `gC5`, whose single merge
operation succeeds. -/
theorem merge_pass_idempotent_witness :
    dupGroups (merge_duplicate_ingredients gC5).1.ingredients = [] ∧
    merge_duplicate_ingredients (merge_duplicate_ingredients gC5).1
      = ((merge_duplicate_ingredients gC5).1, []) :=
  merge_pass_idempotent gC5 (by decide)

/-! ### `normalize_ingredients` management command -/

/-- Group ordering of `find_case_duplicates` (`ORDER BY lower_name`). -/
def lnLE (a b : String × List Ing) : Prop := charsLE a.1.data b.1.data = true

instance : DecidableRel lnLE := fun a b => instDecidableEqBool (charsLE a.1.data b.1.data) true

/-- Model of `find_case_duplicates`: the same duplicate-group query as the merge
script, with its groups ordered by lowercased name. -/
def find_case_duplicates (ings : List Ing) : List (String × List Ing) :=
  List.insertionSort lnLE (dupGroups ings)

/-- The command's properness test
`category and category != 'Unknown' and category != ''`: a null or empty
category is falsy, and the exact string "Unknown" is rejected. -/
def properCat : Option String → Bool
  | some s => !(s == "") && !(s == "Unknown")
  | none => false

/-- The `updates_needed` list: per group, the first member (in row order)
with a proper category is the best candidate; every member failing the test
is queued to receive the best candidate's exact name and category.  A group
with no proper candidate queues nothing. -/
def normalizeUpdates (ings : List Ing) : List (String × String × Option String) :=
  (find_case_duplicates ings).flatMap fun g =>
    match g.2.find? (fun i => properCat i.category) with
    | none => []
    | some b =>
      (g.2.filter fun i => !(properCat i.category)).map fun u => (u.id, b.name, b.category)

/-- One executed update:
`MATCH (i:Ingredient {ingredient_id: $ing_id}) SET i.name = $new_name, i.category = $new_category`. -/
def applyUpdate (ings : List Ing) (upd : String × String × Option String) : List Ing :=
  ings.map fun i =>
    if i.id == upd.1 then { i with name := upd.2.1, category := upd.2.2 } else i

/-- Model of `Command.handle` of `normalize_ingredients` (executing run, confirmation
given): compute the update list from the initial state, then run every
update.  Nodes are never created or deleted and no relationship is
touched. -/
def normalize_ingredients (g : GraphState) : GraphState :=
  { g with ingredients := (normalizeUpdates g.ingredients).foldl applyUpdate g.ingredients }

/-- Concrete state for C10: three case-variants of absinthe, two of them
with distinct proper categories. -/
def gC10 : GraphState :=
  ⟨[⟨"i1", "Absinthe", some "Liquor", none⟩, ⟨"i2", "ABSINTHE", some "Spirits", none⟩,
    ⟨"i3", "absinthe", some "Unknown", none⟩], [("R", "i1")], [], []⟩

/-- C10 counterexample: after the command runs on `gC10`, the group still
has its three nodes and ids, but the members do not share an identical
name — the properly categorised member "ABSINTHE" keeps its own name while
only the Unknown member was rewritten to "Absinthe". -/
theorem normalize_names_not_identical_cex :
    ((normalize_ingredients gC10).ingredients.map fun i => i.name)
      = ["Absinthe", "ABSINTHE", "Absinthe"] ∧
    ((normalize_ingredients gC10).ingredients.map fun i => i.id)
      = (gC10.ingredients.map fun i => i.id) ∧
    ¬ (∀ i ∈ (normalize_ingredients gC10).ingredients,
        ∀ j ∈ (normalize_ingredients gC10).ingredients,
          lowerName i = lowerName j → i.name = j.name) := by
  refine ⟨by decide, by decide, by decide⟩

theorem foldl_applyUpdate_ids (us : List (String × String × Option String)) (l : List Ing) :
    ((us.foldl applyUpdate l).map fun i => i.id) = l.map fun i => i.id := by
  induction us generalizing l with
  | nil => rfl
  | cons u us ih =>
    rw [List.foldl_cons, ih]
    rw [applyUpdate, List.map_map]
    apply List.map_congr_left
    intro i _
    show (if (i.id == u.1) = true then _ else i).id = i.id
    split <;> rfl

theorem mem_foldl_applyUpdate {i : Ing} {l : List Ing}
    (us : List (String × String × Option String)) (hi : i ∈ l)
    (h : ∀ upd ∈ us, i.id ≠ upd.1) : i ∈ us.foldl applyUpdate l := by
  induction us generalizing l with
  | nil => exact hi
  | cons u us ih =>
    rw [List.foldl_cons]
    apply ih
    · have hne : (i.id == u.1) = false :=
        beq_eq_false_iff_ne.mpr (h u (List.mem_cons_self u us))
      have heq : (fun j : Ing =>
          if j.id == u.1 then { j with name := u.2.1, category := u.2.2 } else j) i = i := by
        simp [hne]
      rw [applyUpdate, ← heq]
      exact List.mem_map_of_mem _ hi
    · exact fun upd hupd => h upd (List.mem_cons_of_mem u hupd)

/-- C10 (amended): the command never deletes a node and never creates or
removes a relationship — the id list (hence node count) and all edge lists
are unchanged; every queued update targets a member whose category fails the
properness test (null, empty or "Unknown") inside a group that has a proper
best candidate, and writes exactly that candidate's name and category; nodes
targeted by no update are untouched.  Members that already carried a proper
category keep their own (possibly differently-cased) names, so the group
need not end up sharing one identical name. -/
theorem normalize_frame_properties (g : GraphState) :
    ((normalize_ingredients g).ingredients.map fun i => i.id)
        = (g.ingredients.map fun i => i.id) ∧
    (normalize_ingredients g).ingredients.length = g.ingredients.length ∧
    (normalize_ingredients g).contains = g.contains ∧
    (normalize_ingredients g).classified = g.classified ∧
    (normalize_ingredients g).extra = g.extra ∧
    (∀ upd ∈ normalizeUpdates g.ingredients,
      ∃ gp ∈ find_case_duplicates g.ingredients, ∃ b,
        gp.2.find? (fun i => properCat i.category) = some b ∧
        ∃ u ∈ gp.2, properCat u.category = false ∧ upd = (u.id, b.name, b.category)) ∧
    (∀ i ∈ g.ingredients, (∀ upd ∈ normalizeUpdates g.ingredients, i.id ≠ upd.1) →
      i ∈ (normalize_ingredients g).ingredients) := by
  refine ⟨foldl_applyUpdate_ids _ _, ?_, rfl, rfl, rfl, ?_, ?_⟩
  · have h := foldl_applyUpdate_ids (normalizeUpdates g.ingredients) g.ingredients
    have := congrArg List.length h
    simpa using this
  · intro upd hupd
    obtain ⟨gp, hgp, hmem⟩ := List.mem_flatMap.mp hupd
    refine ⟨gp, hgp, ?_⟩
    revert hmem
    cases hfind : gp.2.find? (fun i => properCat i.category) with
    | none => intro hmem; cases hmem
    | some b =>
      intro hmem
      obtain ⟨u, hu, rfl⟩ := List.mem_map.mp hmem
      exact ⟨b, rfl, u, List.mem_of_mem_filter hu,
        by simpa using List.of_mem_filter hu, rfl⟩
  · intro i hi h
    exact mem_foldl_applyUpdate _ hi h

/-- C10 witness: the frame theorem applied to `gC10`; the untouched-node
hypothesis is discharged for the properly categorised node i1. -/
theorem normalize_frame_properties_witness :
    (normalize_ingredients gC10).contains = gC10.contains ∧
    (⟨"i1", "Absinthe", some "Liquor", none⟩ : Ing)
      ∈ (normalize_ingredients gC10).ingredients := by
  refine ⟨(normalize_frame_properties gC10).2.2.1, ?_⟩
  apply (normalize_frame_properties gC10).2.2.2.2.2.2 ⟨"i1", "Absinthe", some "Liquor", none⟩
    (by decide)
  intro upd hupd
  rw [show normalizeUpdates gC10.ingredients = [("i3", "Absinthe", some "Liquor")]
    from by decide] at hupd
  rw [List.mem_singleton.mp hupd]
  decide

end RokuMeals
